import Mathlib

/-!
Formal model of the command-resolution and session engine of `include/cli/cli.h`
(a single-header interactive CLI framework: a tree of menus and commands, a
session dispatcher, bounded history, and tab completion).

The embedding is shallow: each C++ method is translated to a Lean function over
explicit state.  Side effects of command handlers (text written to the session
output stream, exceptions) are modelled by `Handler.run` returning the written
lines and an optional exception; a session is a `SessState` record threaded
through every call.  Exceptions are modelled by the `Out.thrown` result of
`Exec`, mirroring C++ propagation; `catch` sites inspect it.

Parts of the repository that `cli.h` includes but whose sources are not
available (`detail/split.h`, `detail/history.h`, `detail/fromstring.h`) are
modelled from the specification and are marked `Modelled from the spec:` in
their doc comments.
-/

set_option maxHeartbeats 1000000
set_option maxRecDepth 4000

namespace CliModel

/-! ### Generic string ordering helpers, used to model `std::sort` + `std::unique` -/

/-- Lexicographic comparison of lists of naturals, used to model the
`std::string` ordering that `std::sort` applies in `CliSession::GetCompletions`. -/
def lexLe : List Nat → List Nat → Bool
  | [], _ => true
  | _ :: _, [] => false
  | a :: as, b :: bs => if a < b then true else if b < a then false else lexLe as bs

/-- Lexicographic order on strings via their character codes (models `operator<`
on `std::string` up to the usual byte/char identification for the inputs used). -/
def strLe (a b : String) : Bool := lexLe (a.toList.map Char.toNat) (b.toList.map Char.toNat)

/-- Totality of `lexLe`. -/
theorem lexLe_total (x y : List Nat) : lexLe x y = true ∨ lexLe y x = true := by
  induction x generalizing y with
  | nil => left; rfl
  | cons a as ih =>
    cases y with
    | nil => right; rfl
    | cons b bs =>
      rcases Nat.lt_trichotomy a b with h | h | h
      · left; simp [lexLe, h]
      · subst h
        rcases ih bs with h2 | h2
        · left; simp [lexLe, h2]
        · right; simp [lexLe, h2]
      · right; simp [lexLe, h]

/-- Transitivity of `lexLe`. -/
theorem lexLe_trans {x y z : List Nat} (h1 : lexLe x y = true) (h2 : lexLe y z = true) :
    lexLe x z = true := by
  induction x generalizing y z with
  | nil => rfl
  | cons a as ih =>
    cases y with
    | nil => simp [lexLe] at h1
    | cons b bs =>
      cases z with
      | nil => simp [lexLe] at h2
      | cons c cs =>
        simp only [lexLe] at h1 h2 ⊢
        rcases Nat.lt_trichotomy a b with hab | hab | hab
        · rcases Nat.lt_trichotomy b c with hbc | hbc | hbc
          · simp [if_pos (Nat.lt_trans hab hbc)]
          · subst hbc; simp [if_pos hab]
          · rw [if_neg (by omega), if_pos hbc] at h2; exact absurd h2 (by simp)
        · subst hab
          rcases Nat.lt_trichotomy a c with hbc | hbc | hbc
          · simp [if_pos hbc]
          · subst hbc
            rw [if_neg (by omega), if_neg (by omega)] at h1 h2
            rw [if_neg (by omega), if_neg (by omega)]
            exact ih h1 h2
          · rw [if_neg (by omega), if_pos hbc] at h2; exact absurd h2 (by simp)
        · rw [if_neg (by omega), if_pos hab] at h1; exact absurd h1 (by simp)

/-- Antisymmetry of `lexLe`. -/
theorem lexLe_antisymm {x y : List Nat} (h1 : lexLe x y = true) (h2 : lexLe y x = true) :
    x = y := by
  induction x generalizing y with
  | nil =>
    cases y with
    | nil => rfl
    | cons b bs => simp [lexLe] at h2
  | cons a as ih =>
    cases y with
    | nil => simp [lexLe] at h1
    | cons b bs =>
      simp only [lexLe] at h1 h2
      rcases Nat.lt_trichotomy a b with hab | hab | hab
      · rw [if_neg (by omega), if_pos hab] at h2; exact absurd h2 (by simp)
      · subst hab
        rw [if_neg (by omega), if_neg (by omega)] at h1 h2
        rw [ih h1 h2]
      · rw [if_neg (by omega), if_pos hab] at h1; exact absurd h1 (by simp)

/-- Characters are determined by their code points. -/
theorem charToNat_inj {a b : Char} (h : a.toNat = b.toNat) : a = b := by
  apply Char.eq_of_val_eq
  apply UInt32.eq_of_toBitVec_eq
  exact BitVec.eq_of_toNat_eq h

/-- Antisymmetry of `strLe`. -/
theorem strLe_antisymm {a b : String} (h1 : strLe a b = true) (h2 : strLe b a = true) :
    a = b := by
  have h := lexLe_antisymm h1 h2
  have hl : a.toList = b.toList :=
    List.map_injective_iff.mpr (fun _ _ => charToNat_inj) h
  cases a; cases b
  simp only [String.toList] at hl
  rw [hl]

/-- The `strLe` order as a `Prop`-valued relation for `List.insertionSort`. -/
abbrev rle : String → String → Prop := fun a b => strLe a b = true

instance : IsTotal String rle :=
  ⟨fun a b => lexLe_total (a.toList.map Char.toNat) (b.toList.map Char.toNat)⟩

instance : IsTrans String rle := ⟨fun _ _ _ h1 h2 => lexLe_trans h1 h2⟩

/-- Sorting followed by adjacent deduplication: the model of the
`std::sort` + `std::unique` + `resize` sequence in `CliSession::GetCompletions`. -/
def sortUniq (l : List String) : List String :=
  (l.insertionSort rle).destutter (· ≠ ·)

/-- Strict version of `rle` is transitive (needed for `sortUniq_nodup`). -/
theorem rleStrict_trans : ∀ a b c : String,
    (rle a b ∧ a ≠ b) → (rle b c ∧ b ≠ c) → (rle a c ∧ a ≠ c) := by
  intro a b c h1 h2
  refine ⟨lexLe_trans h1.1 h2.1, ?_⟩
  intro hac
  subst hac
  exact h1.2 (strLe_antisymm h1.1 h2.1)

instance : IsTrans String (fun a b => rle a b ∧ a ≠ b) := ⟨rleStrict_trans⟩

/-- Sorting then removing adjacent duplicates yields a duplicate-free list. -/
theorem sortUniq_nodup (l : List String) : (sortUniq l).Nodup := by
  have hs : (l.insertionSort rle).Sorted rle := List.sorted_insertionSort _ l
  have hsub : List.Sublist ((l.insertionSort rle).destutter (· ≠ ·)) (l.insertionSort rle) :=
    List.destutter_sublist _ _
  have hchain : ((l.insertionSort rle).destutter (· ≠ ·)).Chain' (· ≠ ·) :=
    List.destutter_is_chain' _ _
  have hsorted : ((l.insertionSort rle).destutter (· ≠ ·)).Sorted rle := hs.sublist hsub
  unfold sortUniq
  have hlt : ((l.insertionSort rle).destutter (· ≠ ·)).Chain'
      (fun a b => rle a b ∧ a ≠ b) := by
    generalize (l.insertionSort rle).destutter (· ≠ ·) = d at hchain hsorted
    clear hs hsub
    induction d with
    | nil => exact List.chain'_nil
    | cons a tl ih =>
      cases tl with
      | nil => simp
      | cons b tl2 =>
        rw [List.chain'_cons] at hchain ⊢
        refine ⟨⟨(List.sorted_cons.mp hsorted).1 b (by simp), hchain.1⟩,
          ih hchain.2 (List.Sorted.of_cons hsorted)⟩
  have hpw : ((l.insertionSort rle).destutter (· ≠ ·)).Pairwise
      (fun a b => rle a b ∧ a ≠ b) :=
    List.chain'_iff_pairwise.mp hlt
  exact hpw.imp fun h => h.2

/-! ### Basic string utilities of the source -/

/-- Whitespace test, modelling `std::isspace` as used by the completion
trimming code and the tokenizer. -/
def isWsp (c : Char) : Bool :=
  c = ' ' ∨ c = '\t' ∨ c = '\n' ∨ c = '\r' ∨ c = '\x0b' ∨ c = '\x0c'

/-- Test whether `s` starts with `pre`; models `x.rfind(y, 0) == 0` patterns of
the source (both in `Command::GetCompletionRecursive`, where the name must start
with the typed line, and in `Menu::GetCompletionRecursive`, where the line must
start with the menu name). -/
def strStartsWith (s pre : String) : Bool :=
  pre.toList.isPrefixOf s.toList

/-- Drop the first `k` characters of a string; models `line.erase(0, k)`. -/
def strDrop (s : String) (k : Nat) : String :=
  String.mk (s.toList.drop k)

/-- Remove leading whitespace; models the inlined `trim_left` loops
(`erase(begin, find_if(..., !isspace))`) in `Menu::GetCompletionRecursive`
and `CliSession::GetCompletions`. -/
def trimLeft (s : String) : String :=
  String.mk (s.toList.dropWhile isWsp)

/-- Modelled from the spec: `detail::split` (its source `detail/split.h` is not
in the repository snapshot).  Section 4.6: `Feed` "tokenizes on whitespace";
quoting/escaping is declared an out-of-core detail and is not modelled.  The
tokenizer returns the maximal whitespace-free substrings, in order. -/
def splitGo : List Char → List Char → List String
  | [], acc => if acc.isEmpty then [] else [String.mk acc.reverse]
  | c :: rest, acc =>
    if isWsp c then
      if acc.isEmpty then splitGo rest []
      else String.mk acc.reverse :: splitGo rest []
    else splitGo rest (c :: acc)

/-- Modelled from the spec: whitespace tokenization of an input line
(see `splitGo`). -/
def splitWs (s : String) : List String :=
  splitGo s.toList []

/-! ### Exceptions, handlers, history, session state -/

/-- Exceptions a handler (or the argument binder) can raise.
`stdE true msg` is a `std::bad_cast` (a `std::exception` subclass,
specifically caught in `VariadicFunctionCommand::Exec`); `stdE false msg` is
any other `std::exception` with `what() = msg`; `nonStd` is a non-standard
throw (reaching the `catch (...)` in `CliSession::Feed`). -/
inductive Exc where
  | stdE (isBadCast : Bool) (msg : String)
  | nonStd
deriving DecidableEq, Repr

/-- A registered handler: `hid` is an identity used to log invocations, and
`run args` yields the lines the handler writes to the session stream plus an
optional exception it throws (after writing those lines). -/
structure Handler where
  hid : Nat
  run : List String → List String × Option Exc

/-- Modelled from the spec: `detail::History` (its source `detail/history.h`
is not in the repository snapshot).  Section 4.5: a size-bounded sequence
(`entries`, oldest first, at most `bound` elements, oldest evicted on
overflow), a navigation cursor (`cursor = entries.length` is the live,
past-the-end position), and the saved live line (`saved`). -/
structure History where
  bound : Nat
  entries : List String
  cursor : Nat
  saved : String
deriving DecidableEq, Repr

/-- Modelled from the spec: `NewCommand(line)` appends, evicting the oldest
entry if the bound is exceeded, and resets the navigation cursor to
past-the-end. -/
def History.NewCommand (h : History) (line : String) : History :=
  let es := h.entries ++ [line]
  let es := if h.bound < es.length then es.drop (es.length - h.bound) else es
  { h with entries := es, cursor := es.length }

/-- Modelled from the spec: `Previous(currentLine)` moves the cursor one step
toward older entries (saving `currentLine` first if the cursor is at the live
position) and returns the entry now pointed at, or the original `currentLine`
unchanged if already at the oldest entry (no wraparound). -/
def History.Previous (h : History) (cur : String) : String × History :=
  if h.cursor = 0 then (cur, h)
  else
    let saved := if h.cursor = h.entries.length then cur else h.saved
    (h.entries.getD (h.cursor - 1) cur,
      { h with cursor := h.cursor - 1, saved := saved })

/-- Iterated `Previous`, threading the displayed line: the result of pressing
"up" `n` times starting from line `cur`. -/
def prevN : Nat → History → String → String × History
  | 0, h, cur => (cur, h)
  | n + 1, h, cur =>
    let r := h.Previous cur
    prevN n r.2 r.1

/-- The mutable parts of a `CliSession` visible to the model: the current-menu
pointer (as a path of child indices into the root menu tree), the lines written
to the output stream so far, the log of handler invocations (by `Handler.hid`),
and the session history. -/
structure SessState where
  current : List Nat
  output : List String
  calls : List Nat
  hist : History
deriving DecidableEq, Repr

/-- Result of an `Exec` call: an ordinary `bool` return, or an exception
propagating out of it. -/
inductive Out where
  | ret (b : Bool)
  | thrown (e : Exc)
deriving DecidableEq, Repr

/-! ### The command tree -/

mutual
/-- The command tree of `cli.h`.  `vfc` is `VariadicFunctionCommand` (a
fixed-arity typed leaf whose `conv` list models the per-parameter
`detail::from_string` conversions: one Bool-valued success predicate per
declared parameter); `freeform` is `FreeformCommand`; `menu` is `Menu` with its
ordered child registry.  Every variant carries the `Command` base state:
immutable `name` and the mutable `enabled` flag (a tree value here represents
the tree at one instant; enable/disable produce a different value). -/
inductive Cmd where
  | vfc (name : String) (enabled : Bool) (conv : List (String → Bool)) (h : Handler)
  | freeform (name : String) (enabled : Bool) (h : Handler)
  | menu (name : String) (enabled : Bool) (children : CmdList)

inductive CmdList where
  | nil
  | cons (c : Cmd) (cs : CmdList)
end

/-- Run a handler: its output lines are appended to the session output, its
invocation is logged, and its optional exception is returned. -/
def runHandler (h : Handler) (args : List String) (st : SessState) : SessState × Option Exc :=
  let r := h.run args
  ({ st with output := st.output ++ r.1, calls := st.calls ++ [h.hid] }, r.2)

/-- The `Select<Args...>::Exec` conversion cascade, abstracted: every token must
convert under its parameter's predicate.  Modelled from the spec for the part
living in the missing `detail/fromstring.h`: a failed conversion raises
`std::bad_cast`, which `VariadicFunctionCommand::Exec` catches. -/
def convOk (conv : List (String → Bool)) (args : List String) : Bool :=
  (List.zip conv args).all fun p => p.1 p.2

/-- The `try { ... } catch (std::bad_cast&) { return false; }` wrapper of
`VariadicFunctionCommand::Exec`: a `std::bad_cast` is absorbed into the
non-match return, any other exception keeps propagating, and a normal finish
is a match. -/
def catchBadCast : SessState × Option Exc → SessState × Out
  | (st', some (.stdE true _)) => (st', .ret false)
  | (st', some ex) => (st', .thrown ex)
  | (st', none) => (st', .ret true)

/-- Return path of a handler call with no catch block: exceptions propagate, a
normal finish is a match. -/
def propagate : SessState × Option Exc → SessState × Out
  | (st', some ex) => (st', .thrown ex)
  | (st', none) => (st', .ret true)

/-- `VariadicFunctionCommand::Exec`: reject when disabled; reject when the
token count differs from parameter count + 1 (before any conversion); reject on
name mismatch; reject (via the absorbed `std::bad_cast`) when some argument
fails conversion — the handler is not invoked then; otherwise run the handler
inside the `catch (std::bad_cast&)` wrapper. -/
def vfcExec (n : String) (e : Bool) (conv : List (String → Bool)) (h : Handler)
    (cmdLine : List String) (st : SessState) : SessState × Out :=
  if !e then (st, .ret false)
  else if cmdLine.length ≠ conv.length + 1 then (st, .ret false)
  else
    match cmdLine with
    | [] => (st, .ret false)
    | t :: args =>
      if n = t then
        if convOk conv args then catchBadCast (runHandler h args st)
        else (st, .ret false)
      else (st, .ret false)

/-- `FreeformCommand::Exec`: reject when disabled; match on the first token
only; pass the remaining tokens to the handler (no catch, exceptions
propagate). -/
def ffExec (n : String) (e : Bool) (h : Handler)
    (cmdLine : List String) (st : SessState) : SessState × Out :=
  if !e then (st, .ret false)
  else
    match cmdLine with
    | [] => (st, .ret false)
    | t :: args =>
      if n = t then propagate (runHandler h args st)
      else (st, .ret false)

mutual
/-- `Command::Exec` dispatch.  A menu is addressed by its path `p` of child
indices from the root, so `session.Current(this)` becomes storing `p`.
`Menu::Exec`: reject when disabled; match when `cmdLine[0] == name`; with a
single token perform scope entry; otherwise strip the first token and try each
child in insertion order via `CmdList.ExecFirst`.  The source indexes
`cmdLine[0]` unconditionally, so the empty-token-list case is undefined
behaviour in C++; the model returns a non-match there, and every theorem about
`Menu::Exec` restricts to non-empty token lists. -/
def Cmd.Exec : Cmd → List Nat → List String → SessState → SessState × Out
  | .vfc n e conv h, _, cmdLine, st => vfcExec n e conv h cmdLine st
  | .freeform n e h, _, cmdLine, st => ffExec n e h cmdLine st
  | .menu n e cs, p, cmdLine, st =>
    if !e then (st, .ret false)
    else
      match cmdLine with
      | [] => (st, .ret false)
      | t :: rest =>
        if t = n then
          if rest.isEmpty then ({ st with current := p }, .ret true)
          else CmdList.ExecFirst cs p 0 rest st
        else (st, .ret false)

/-- The child loop shared by `Menu::Exec` (on the stripped tokens) and
`Menu::ScanCmds` (on the unstripped tokens): try each child's `Exec` in
insertion order, returning at the first success, and let exceptions
propagate. -/
def CmdList.ExecFirst : CmdList → List Nat → Nat → List String → SessState → SessState × Out
  | .nil, _, _, _, st => (st, .ret false)
  | .cons c cs, p, i, cmdLine, st =>
    match Cmd.Exec c (p ++ [i]) cmdLine st with
    | (st', .ret true) => (st', .ret true)
    | (st', .ret false) => CmdList.ExecFirst cs p (i + 1) cmdLine st'
    | (st', .thrown ex) => (st', .thrown ex)
end

/-- Child lookup in a registry by index. -/
def CmdList.get? : CmdList → Nat → Option Cmd
  | .nil, _ => none
  | .cons c _, 0 => some c
  | .cons _ cs, n + 1 => cs.get? n

/-- Resolve a path of child indices to the command it denotes. -/
def Cmd.at? : Cmd → List Nat → Option Cmd
  | c, [] => some c
  | .menu _ _ cs, i :: is =>
    match cs.get? i with
    | some c => Cmd.at? c is
    | none => none
  | _, _ :: _ => none

/-- `Menu::ScanCmds` on the menu at path `p` of the tree `root`: reject when
disabled; try every direct child's `Exec` on the (unstripped) tokens; on total
miss delegate to the parent's `Exec` (the menu at the path with the last index
removed) with the same unstripped tokens, or report no match at the root
(`parent == nullptr`).  An invalid path — impossible for the session's
current-menu pointer in the source — is a non-match. -/
def ScanCmds (root : Cmd) (p : List Nat) (cmdLine : List String) (st : SessState) :
    SessState × Out :=
  match Cmd.at? root p with
  | some (.menu _ e cs) =>
    if !e then (st, .ret false)
    else
      match CmdList.ExecFirst cs p 0 cmdLine st with
      | (st', .ret false) =>
        if p.isEmpty then (st', .ret false)
        else
          match Cmd.at? root p.dropLast with
          | some parent => Cmd.Exec parent p.dropLast cmdLine st'
          | none => (st', .ret false)
      | r => r
  | _ => (st, .ret false)

/-! ### Session: exception routing and `Feed` -/

/-- `Cli::StdExceptionHandler` (the private overload): call the installed hook
if any, else print `e.what()` as one line.  The hook is modelled as a function
from the command line and the exception message to the lines it writes. -/
def StdExceptionHandler (hook : Option (String → String → List String))
    (cmdLine msg : String) (st : SessState) : SessState :=
  match hook with
  | some f => { st with output := st.output ++ f cmdLine msg }
  | none => { st with output := st.output ++ [msg] }

/-- The two catch blocks at the bottom of `CliSession::Feed`. -/
def handleExc (hook : Option (String → String → List String))
    (line : String) (ex : Exc) (st : SessState) : SessState :=
  match ex with
  | .stdE _ msg => StdExceptionHandler hook line msg st
  | .nonStd =>
    { st with output := st.output ++
        ["Cli. Unknown exception caught handling command line \"" ++ line ++ "\""] }

/-- `CliSession::Feed`: tokenize; an empty tokenization is a silent no-op;
otherwise record the raw line into history, then inside `try`: scan the
session's global-scope menu, then the current menu, and print the
"wrong command" diagnostic if neither matched; the catch blocks route
exceptions as in the source. -/
def Feed (root gmenu : Cmd) (hook : Option (String → String → List String))
    (st : SessState) (line : String) : SessState :=
  match splitWs line with
  | [] => st
  | t :: rest =>
    let st0 := { st with hist := st.hist.NewCommand line }
    match ScanCmds gmenu [] (t :: rest) st0 with
    | (st1, .thrown ex) => handleExc hook line ex st1
    | (st1, .ret true) => st1
    | (st1, .ret false) =>
      match ScanCmds root st1.current (t :: rest) st1 with
      | (st2, .thrown ex) => handleExc hook line ex st2
      | (st2, .ret true) => st2
      | (st2, .ret false) =>
        { st2 with output := st2.output ++ ["wrong command: " ++ line] }

/-! ### Completion -/

/-- `Command::GetCompletionRecursive` base implementation: nothing when
disabled, else the command's own name when the name starts with the typed
line. -/
def baseCompletion (n : String) (e : Bool) (line : String) : List String :=
  if !e then []
  else if strStartsWith n line then [n]
  else []

mutual
/-- `Command::GetCompletionRecursive` with the `Menu` override.  The menu
override: when the line starts with the menu's own name it strips that name and
following whitespace, recurses into the children, and re-prepends the menu
name — without consulting the menu's `enabled` flag on this path (it only
reaches the `enabled` check of the base implementation when the line does not
start with the menu name; this is the source's behaviour, reproduced
deliberately). -/
def Cmd.GetCompletionRecursive : Cmd → String → List String
  | .vfc n e _ _, line => baseCompletion n e line
  | .freeform n e _, line => baseCompletion n e line
  | .menu n e cs, line =>
    if strStartsWith line n then
      (CmdList.GetCompletions cs (trimLeft (strDrop line n.length))).map
        (fun c => n ++ " " ++ c)
    else baseCompletion n e line

/-- The free function `cli::GetCompletions(cmds, line)`: concatenation of the
children's recursive completions, in registry order. -/
def CmdList.GetCompletions : CmdList → String → List String
  | .nil, _ => []
  | .cons c cs, line => Cmd.GetCompletionRecursive c line ++ CmdList.GetCompletions cs line
end

/-- `Menu::GetCompletions` on the menu at path `p` of tree `root`: its
children's recursive completions followed by the parent's recursive completion
(nothing at the root, whose parent is null). -/
def MenuGetCompletions (root : Cmd) (p : List Nat) (line : String) : List String :=
  match Cmd.at? root p with
  | some (.menu _ _ cs) =>
    CmdList.GetCompletions cs line ++
      (if p.isEmpty then []
       else
         match Cmd.at? root p.dropLast with
         | some parent => Cmd.GetCompletionRecursive parent line
         | none => [])
  | _ => []

/-- `CliSession::GetCompletions`: trim leading whitespace, query the
global-scope menu then the current menu, concatenate, sort, and deduplicate. -/
def SessionGetCompletions (root gmenu : Cmd) (cur : List Nat) (line : String) :
    List String :=
  let l := trimLeft line
  sortUniq (MenuGetCompletions gmenu [] l ++ MenuGetCompletions root cur l)

/-! ### The command handle (`CmdHandler::Descriptor::Remove`) -/

/-- Erase the first registry entry whose command is the very object (pointer
identity, modelled by a numeric id) the handle refers to; the entry's name
plays no role.  This is the `std::find_if` + `erase` in
`CmdHandler::Descriptor::Remove`. -/
def removeFirstById (target : Nat) : List (Nat × String) → List (Nat × String)
  | [] => []
  | e :: es => if e.1 = target then es else e :: removeFirstById target es

/-- `CmdHandler::Descriptor::Remove`: lock both weak references; only when the
command and the owning registry are both still alive, erase the entry located
by object identity; otherwise do nothing. -/
def DescriptorRemove (cmdAlive regAlive : Bool) (target : Nat)
    (reg : List (Nat × String)) : List (Nat × String) :=
  if cmdAlive && regAlive then removeFirstById target reg else reg

/-! ### Concrete fixtures used by the scenario parts of the theorems -/

/-- An empty history with the default session bound of 100. -/
def hist0 : History := ⟨100, [], 0, ""⟩

/-- A fresh session state: current menu = root, nothing written, no handler
invoked, empty history. -/
def st0 : SessState := ⟨[], [], [], hist0⟩

/-- Handler of the `ping` leaf: writes nothing. -/
def pingH : Handler := ⟨1, fun _ => ([], none)⟩

/-- Handler of the `show` leaf: writes nothing. -/
def showH : Handler := ⟨2, fun _ => ([], none)⟩

/-- A handler that throws a `std::exception` with message `kaboom`. -/
def boomH : Handler := ⟨3, fun _ => ([], some (.stdE false "kaboom"))⟩

/-- A handler that writes one line and then throws `std::bad_cast`. -/
def badCastH : Handler := ⟨4, fun _ => (["half done"], some (.stdE true "std::bad_cast"))⟩

/-- Handler of the two-argument `add` leaf. -/
def addH : Handler := ⟨5, fun _ => (["added"], none)⟩

/-- Handler of the session's global `help` command. -/
def helpH : Handler := ⟨8, fun _ => (["helptext"], none)⟩

/-- Handler of the session's global `exit` command. -/
def exitH : Handler := ⟨9, fun _ => ([], none)⟩

/-- Conversion predicate of an `int` parameter: `detail::from_string<int>`
succeeds on (modelled as) all-digit tokens. -/
def isNatTok : String → Bool :=
  fun s => !s.toList.isEmpty && s.toList.all fun c => 48 ≤ c.toNat && c.toNat ≤ 57

/-- The session's private global-scope menu as built by the `CliSession`
constructor: a nameless menu holding the `help` and `exit` commands. -/
def gmenu0 : Cmd :=
  .menu "" true (.cons (.vfc "help" true [] helpH) (.cons (.vfc "exit" true [] exitH) .nil))

/-- Root menu `cli` with leaf `ping` (index 0) and submenu `cfg` (index 1). -/
def rootA : Cmd :=
  .menu "cli" true (.cons (.vfc "ping" true [] pingH) (.cons (.menu "cfg" true .nil) .nil))

/-- Root menu `cli` with submenu `net` (enabled or not) containing leaf `show`. -/
def rootNet (netEnabled : Bool) : Cmd :=
  .menu "cli" true
    (.cons (.menu "net" netEnabled (.cons (.vfc "show" true [] showH) .nil)) .nil)

/-- Root menu `cli` with the fixed-arity leaf `add <int> <int>`. -/
def rootAdd : Cmd :=
  .menu "cli" true (.cons (.vfc "add" true [isNatTok, isNatTok] addH) .nil)

/-- Root menu `cli` with the throwing leaf `boom` and the leaf `ping`. -/
def rootBoom : Cmd :=
  .menu "cli" true (.cons (.vfc "boom" true [] boomH) (.cons (.vfc "ping" true [] pingH) .nil))

/-- Root menu `cli` with a one-parameter leaf `conv` whose handler throws
`std::bad_cast` itself (after its arguments converted fine). -/
def rootBC : Cmd :=
  .menu "cli" true (.cons (.vfc "conv" true [fun _ => true] badCastH) .nil)

/-! ### Claim C1: `Menu::Exec` -/

/-- C1: for every menu and every non-empty token list, `Menu::Exec` returns
false if the menu is disabled; if `tokens[0]` equals the menu's name and the
list has exactly one token it sets the session's current menu to this menu and
returns true without invoking any child; if more tokens follow it tries each
child's `Exec` on the tokens with the first removed, in insertion order,
returning true at the first child that succeeds; and it returns false if no
child succeeds or `tokens[0]` differs from the name. -/
theorem menu_Exec_spec (n : String) (cs : CmdList) (p : List Nat) (t : String)
    (rest : List String) (st : SessState) :
    (Cmd.Exec (.menu n false cs) p (t :: rest) st = (st, .ret false)) ∧
    (t = n → rest = [] →
      Cmd.Exec (.menu n true cs) p (t :: rest) st = ({ st with current := p }, .ret true)) ∧
    (t = n → rest ≠ [] →
      Cmd.Exec (.menu n true cs) p (t :: rest) st = CmdList.ExecFirst cs p 0 rest st) ∧
    (t ≠ n → Cmd.Exec (.menu n true cs) p (t :: rest) st = (st, .ret false)) ∧
    (CmdList.ExecFirst .nil p 0 rest st = (st, .ret false)) ∧
    (∀ c cs' i st1 st2, Cmd.Exec c (p ++ [i]) rest st1 = (st2, .ret true) →
      CmdList.ExecFirst (.cons c cs') p i rest st1 = (st2, .ret true)) ∧
    (∀ c cs' i st1 st2, Cmd.Exec c (p ++ [i]) rest st1 = (st2, .ret false) →
      CmdList.ExecFirst (.cons c cs') p i rest st1 = CmdList.ExecFirst cs' p (i + 1) rest st2) := by
  refine ⟨?_, ?_, ?_, ?_, ?_, ?_, ?_⟩
  · simp [Cmd.Exec]
  · intro h1 h2; subst h1; subst h2; simp [Cmd.Exec]
  · intro h1 h2; subst h1
    simp [Cmd.Exec, List.isEmpty_iff, h2]
  · intro h1; simp [Cmd.Exec, h1]
  · simp [CmdList.ExecFirst]
  · intro c cs' i st1 st2 h; simp [CmdList.ExecFirst, h]
  · intro c cs' i st1 st2 h; simp [CmdList.ExecFirst, h]

/-- Witness for `menu_Exec_spec` at concrete inputs: scope entry on
`["m"]`, child dispatch on `["m", "p"]` (stripping the menu name), rejection
on a foreign first token, and the two child-loop cases. -/
theorem menu_Exec_spec_witness :
    (Cmd.Exec (.menu "m" true .nil) [2] ["m"] st0 = ({ st0 with current := [2] }, .ret true)) ∧
    (Cmd.Exec (.menu "m" true (.cons (.vfc "p" true [] pingH) .nil)) [] ["m", "p"] st0
      = CmdList.ExecFirst (.cons (.vfc "p" true [] pingH) .nil) [] 0 ["p"] st0) ∧
    (Cmd.Exec (.menu "m" true .nil) [] ["x"] st0 = (st0, .ret false)) ∧
    (CmdList.ExecFirst (.cons (.vfc "p" true [] pingH) .nil) [] 0 ["p"] st0
      = ({ st0 with output := [], calls := [1] }, .ret true)) :=
  ⟨(menu_Exec_spec "m" .nil [2] "m" [] st0).2.1 rfl rfl,
   (menu_Exec_spec "m" (.cons (.vfc "p" true [] pingH) .nil) [] "m" ["p"] st0).2.2.1 rfl
     (by decide),
   (menu_Exec_spec "m" .nil [] "x" [] st0).2.2.2.1 (by decide),
   (menu_Exec_spec "m" (.cons (.vfc "p" true [] pingH) .nil) [] "p" ["p"] st0).2.2.2.2.2.1
     (.vfc "p" true [] pingH) .nil 0 st0 ({ st0 with output := [], calls := [1] }) (by decide)⟩

/-! ### Claim C2: `Menu::ScanCmds` and parent delegation -/

/-- C2 counterexample: after entering submenu `cfg` (the session's current menu
becomes the `cfg` path), `Feed "ping"` does NOT resolve the `ping` command
registered at root: the `ping` handler is never invoked and the session prints
the "wrong command" diagnostic.  Parent delegation re-enters the parent's
`Exec`, which matches the parent menu's name (`cli`) against `tokens[0]`
(`ping`) and fails. -/
theorem scanCmds_nested_counterexample :
    (Feed rootA gmenu0 none st0 "cfg").current = [1] ∧
    (Feed rootA gmenu0 none (Feed rootA gmenu0 none st0 "cfg") "ping").calls = [] ∧
    (Feed rootA gmenu0 none (Feed rootA gmenu0 none st0 "cfg") "ping").output
      = ["wrong command: ping"] := by
  decide

/-- C2 amended: for every menu and non-empty token list, `Menu::ScanCmds`
returns false if the menu is disabled; otherwise it tries every direct child's
`Exec` on the tokens, in insertion order, returning true at the first success;
if no child matches and the menu has a parent, it calls the parent's `Exec`
(not the parent's `ScanCmds`) with the original unstripped token list and
returns that result; if there is no parent it returns false.  Consequently,
after entering submenu `cfg`, a root-registered `ping` is NOT reachable as
`Feed "ping"` (the parent's `Exec` requires the parent menu's name as the
leading token) but IS reachable as `Feed "cli ping"` via parent delegation
from `cfg`. -/
theorem scanCmds_spec :
    (∀ root p n cs cmdLine st, Cmd.at? root p = some (.menu n false cs) →
      ScanCmds root p cmdLine st = (st, .ret false)) ∧
    (∀ root p n cs cmdLine st st1, Cmd.at? root p = some (.menu n true cs) →
      CmdList.ExecFirst cs p 0 cmdLine st = (st1, .ret true) →
      ScanCmds root p cmdLine st = (st1, .ret true)) ∧
    (∀ root n cs cmdLine st st1, Cmd.at? root [] = some (.menu n true cs) →
      CmdList.ExecFirst cs [] 0 cmdLine st = (st1, .ret false) →
      ScanCmds root [] cmdLine st = (st1, .ret false)) ∧
    (∀ root p n cs cmdLine st st1 parent, Cmd.at? root p = some (.menu n true cs) →
      CmdList.ExecFirst cs p 0 cmdLine st = (st1, .ret false) → p ≠ [] →
      Cmd.at? root p.dropLast = some parent →
      ScanCmds root p cmdLine st = Cmd.Exec parent p.dropLast cmdLine st1) ∧
    ((Feed rootA gmenu0 none st0 "cfg").current = [1] ∧
     (Feed rootA gmenu0 none (Feed rootA gmenu0 none st0 "cfg") "ping").calls = [] ∧
     (Feed rootA gmenu0 none (Feed rootA gmenu0 none st0 "cfg") "cli ping").calls = [1] ∧
     (Feed rootA gmenu0 none (Feed rootA gmenu0 none st0 "cfg") "cli ping").output = []) := by
  refine ⟨?_, ?_, ?_, ?_, by decide⟩
  · intro root p n cs cmdLine st h
    simp [ScanCmds, h]
  · intro root p n cs cmdLine st st1 h hfirst
    simp [ScanCmds, h, hfirst]
  · intro root n cs cmdLine st st1 h hfirst
    simp [ScanCmds, h, hfirst]
  · intro root p n cs cmdLine st st1 parent h hfirst hp hpar
    simp [ScanCmds, h, hfirst, List.isEmpty_iff, hp, hpar]

/-- Witness for `scanCmds_spec` at concrete inputs: a disabled current menu is
skipped; child dispatch from the root; root total miss; and parent delegation
from `cfg` with the unstripped tokens. -/
theorem scanCmds_spec_witness :
    (ScanCmds (rootNet false) [0] ["x"] st0 = (st0, .ret false)) ∧
    (ScanCmds rootA [] ["ping"] st0 = ({ st0 with calls := [1] }, .ret true)) ∧
    (ScanCmds rootA [] ["nope"] st0 = (st0, .ret false)) ∧
    (ScanCmds rootA [1] ["cli", "ping"] st0
      = Cmd.Exec rootA [] ["cli", "ping"] st0) :=
  ⟨(scanCmds_spec).1 (rootNet false) [0] "net" (.cons (.vfc "show" true [] showH) .nil)
      ["x"] st0 rfl,
   (scanCmds_spec).2.1 rootA [] "cli"
      (.cons (.vfc "ping" true [] pingH) (.cons (.menu "cfg" true .nil) .nil)) ["ping"] st0
      ({ st0 with calls := [1] }) rfl (by decide),
   (scanCmds_spec).2.2.1 rootA "cli"
      (.cons (.vfc "ping" true [] pingH) (.cons (.menu "cfg" true .nil) .nil)) ["nope"] st0
      st0 rfl (by decide),
   (scanCmds_spec).2.2.2.1 rootA [1] "cfg" .nil ["cli", "ping"] st0 st0 rootA
      rfl (by decide) (by decide) rfl⟩

/-! ### Claim C3: disabled commands and visibility -/

/-- C3 failing input: a disabled menu `net` holding an enabled leaf `show`.
The claim says a disabled command's completion candidates are empty for every
line, uniformly for leaves and menus; but `Menu::GetCompletionRecursive` does
not consult the `enabled` flag when the line starts with the menu's name, so
the disabled menu still produces the completion `"net show"` for the line
`"net sh"` — both directly and through `CliSession::GetCompletions` — while
`Exec` (and the completion fallback for lines not starting with the name, such
as `"ne"`) do respect the flag. -/
theorem disabled_menu_completion_leak :
    (Cmd.GetCompletionRecursive
        (.menu "net" false (.cons (.vfc "show" true [] showH) .nil)) "net sh"
      = ["net show"]) ∧
    (SessionGetCompletions (rootNet false) gmenu0 [] "net sh" = ["net show"]) ∧
    (Cmd.Exec (.menu "net" false (.cons (.vfc "show" true [] showH) .nil)) [0]
        ["net", "show"] st0 = (st0, .ret false)) ∧
    (Cmd.GetCompletionRecursive
        (.menu "net" false (.cons (.vfc "show" true [] showH) .nil)) "ne" = []) := by
  decide

/-! ### Claim C8: hierarchical, duplicate-free completion -/

/-- C8: completion is hierarchical and duplicate-free.  With menu `net`
containing the enabled leaf `show`, the session completion of `"ne"` is
`["net"]` and of `"net sh"` is `["net show"]`; a menu strips its own name and
the following whitespace, recurses into its children and re-prepends its name,
and does so exactly when the partial line begins with the menu's name; and for
every partial line the candidate list of `CliSession::GetCompletions` contains
no string twice. -/
theorem completion_hierarchical_nodup :
    (SessionGetCompletions (rootNet true) gmenu0 [] "ne" = ["net"]) ∧
    (SessionGetCompletions (rootNet true) gmenu0 [] "net sh" = ["net show"]) ∧
    (∀ n e cs line, strStartsWith line n = true →
      Cmd.GetCompletionRecursive (.menu n e cs) line
        = (CmdList.GetCompletions cs (trimLeft (strDrop line n.length))).map
            (fun c => n ++ " " ++ c)) ∧
    (∀ n e cs line, strStartsWith line n = false →
      Cmd.GetCompletionRecursive (.menu n e cs) line = baseCompletion n e line) ∧
    (∀ root gmenu cur line, (SessionGetCompletions root gmenu cur line).Nodup) := by
  refine ⟨by decide, by decide, ?_, ?_, ?_⟩
  · intro n e cs line h
    simp [Cmd.GetCompletionRecursive, h]
  · intro n e cs line h
    simp [Cmd.GetCompletionRecursive, h]
  · intro root gmenu cur line
    exact sortUniq_nodup _

/-- Witness for `completion_hierarchical_nodup` at concrete inputs: the menu
recursion applies exactly when the line starts with the menu name. -/
theorem completion_hierarchical_nodup_witness :
    (Cmd.GetCompletionRecursive (.menu "net" true (.cons (.vfc "show" true [] showH) .nil))
        "net s"
      = (CmdList.GetCompletions (.cons (.vfc "show" true [] showH) .nil)
          (trimLeft (strDrop "net s" "net".length))).map (fun c => "net" ++ " " ++ c)) ∧
    (Cmd.GetCompletionRecursive (.menu "net" true (.cons (.vfc "show" true [] showH) .nil))
        "ne"
      = baseCompletion "net" true "ne") :=
  ⟨(completion_hierarchical_nodup).2.2.1 "net" true
      (.cons (.vfc "show" true [] showH) .nil) "net s" (by decide),
   (completion_hierarchical_nodup).2.2.2.1 "net" true
      (.cons (.vfc "show" true [] showH) .nil) "ne" (by decide)⟩

/-! ### Claim C4: fixed-arity rejection and conversion failure -/

/-- C4: for every fixed-arity typed command with `N` parameters, `Exec` returns
false leaving the session untouched (no conversion, no handler invocation)
whenever the token count minus the name token differs from `N`; and when the
arity matches but some token fails conversion, `Exec` returns false without
invoking the handler and without any exception escaping, so dispatch falls
through and the session reports a single "wrong command" line (concrete
scenarios: `add <int> <int>` fed `"add 1"` and `"add x y"`; sanity:
`"add 1 2"` does invoke the handler). -/
theorem vfc_arity_conversion_spec :
    (∀ (n : String) (e : Bool) conv (h : Handler) (p : List Nat) cmdLine (st : SessState),
      cmdLine.length ≠ conv.length + 1 →
      Cmd.Exec (.vfc n e conv h) p cmdLine st = (st, .ret false)) ∧
    (∀ (n : String) conv (h : Handler) (p : List Nat) (t : String) args (st : SessState),
      (t :: args).length = conv.length + 1 → convOk conv args = false →
      Cmd.Exec (.vfc n true conv h) p (t :: args) st = (st, .ret false)) ∧
    ((Feed rootAdd gmenu0 none st0 "add 1").calls = []) ∧
    ((Feed rootAdd gmenu0 none st0 "add 1").output = ["wrong command: add 1"]) ∧
    ((Feed rootAdd gmenu0 none st0 "add x y").calls = []) ∧
    ((Feed rootAdd gmenu0 none st0 "add x y").output = ["wrong command: add x y"]) ∧
    ((Feed rootAdd gmenu0 none st0 "add 1 2").calls = [5]) := by
  refine ⟨?_, ?_, by decide, by decide, by decide, by decide, by decide⟩
  · intro n e conv h p cmdLine st hlen
    cases e with
    | false => simp [Cmd.Exec, vfcExec]
    | true => simp [Cmd.Exec, vfcExec, hlen]
  · intro n conv h p t args st hlen hconv
    by_cases hn : n = t
    · simp [Cmd.Exec, vfcExec, hlen, hconv, hn]
    · simp [Cmd.Exec, vfcExec, hlen, hconv, hn]

/-- Witness for `vfc_arity_conversion_spec` at concrete inputs: `add` with one
token too few is rejected with the session unchanged, and `add x y` (conversion
failure on `x`) is rejected with the session unchanged. -/
theorem vfc_arity_conversion_spec_witness :
    (Cmd.Exec (.vfc "add" true [isNatTok, isNatTok] addH) [] ["add", "1"] st0
      = (st0, .ret false)) ∧
    (Cmd.Exec (.vfc "add" true [isNatTok, isNatTok] addH) [] ["add", "x", "y"] st0
      = (st0, .ret false)) :=
  ⟨(vfc_arity_conversion_spec).1 "add" true [isNatTok, isNatTok] addH [] ["add", "1"] st0
      (by decide),
   (vfc_arity_conversion_spec).2.1 "add" [isNatTok, isNatTok] addH [] "add" ["x", "y"] st0
      (by decide) (by decide)⟩

/-! ### Dispatch does not touch the history (helper lemmas for the `Feed` claims) -/

/-- `catchBadCast` keeps the state of its input. -/
theorem catchBadCast_hist (r : SessState × Option Exc) : (catchBadCast r).1 = r.1 := by
  rcases r with ⟨st', o⟩
  rcases o with _ | ex
  · rfl
  · rcases ex with ⟨b, msg⟩ | _
    · cases b <;> rfl
    · rfl

/-- `propagate` keeps the state of its input. -/
theorem propagate_hist (r : SessState × Option Exc) : (propagate r).1 = r.1 := by
  rcases r with ⟨st', o⟩
  rcases o with _ | ex <;> rfl

mutual
/-- No `Exec` call modifies the session history. -/
theorem Cmd.exec_hist : ∀ (c : Cmd) (p : List Nat) (toks : List String) (st : SessState),
    ((Cmd.Exec c p toks st).1).hist = st.hist
  | .vfc n e conv h, p, toks, st => by
    simp only [Cmd.Exec, vfcExec]
    repeat' split
    all_goals first
      | rfl
      | (rw [catchBadCast_hist]; rfl)
  | .freeform n e h, p, toks, st => by
    simp only [Cmd.Exec, ffExec]
    repeat' split
    all_goals first
      | rfl
      | (rw [propagate_hist]; rfl)
  | .menu n e cs, p, toks, st => by
    cases toks with
    | nil => simp [Cmd.Exec]
    | cons t rest =>
      cases e with
      | false => simp [Cmd.Exec]
      | true =>
        by_cases ht : t = n
        · by_cases hr : rest.isEmpty
          · simp [Cmd.Exec, ht, hr]
          · have := CmdList.execFirst_hist cs p 0 rest st
            simpa [Cmd.Exec, ht, hr] using this
        · simp [Cmd.Exec, ht]

/-- No pass over a child registry modifies the session history. -/
theorem CmdList.execFirst_hist : ∀ (cs : CmdList) (p : List Nat) (i : Nat)
    (toks : List String) (st : SessState),
    ((CmdList.ExecFirst cs p i toks st).1).hist = st.hist
  | .nil, _, _, _, _ => rfl
  | .cons c cs, p, i, toks, st => by
    have h1 := Cmd.exec_hist c (p ++ [i]) toks st
    rcases hE : Cmd.Exec c (p ++ [i]) toks st with ⟨st1, o⟩
    rw [hE] at h1
    simp only [CmdList.ExecFirst, hE]
    cases o with
    | ret b =>
      cases b with
      | true => exact h1
      | false => rw [CmdList.execFirst_hist cs p (i + 1) toks st1]; exact h1
    | thrown ex => exact h1
end

/-- `ScanCmds` does not modify the session history. -/
theorem scanCmds_hist (root : Cmd) (p : List Nat) (toks : List String) (st : SessState) :
    ((ScanCmds root p toks st).1).hist = st.hist := by
  rcases hat : Cmd.at? root p with _ | c
  · simp [ScanCmds, hat]
  · cases c with
    | vfc n e conv h => simp [ScanCmds, hat]
    | freeform n e h => simp [ScanCmds, hat]
    | menu n e cs =>
      simp only [ScanCmds, hat]
      split
      · rfl
      · have h1 := CmdList.execFirst_hist cs p 0 toks st
        rcases hf : CmdList.ExecFirst cs p 0 toks st with ⟨st1, o⟩
        rw [hf] at h1
        cases o with
        | ret b =>
          cases b with
          | true => exact h1
          | false =>
            simp only []
            split
            · exact h1
            · rcases hpar : Cmd.at? root p.dropLast with _ | parent
              · exact h1
              · rw [Cmd.exec_hist parent p.dropLast toks st1]; exact h1
        | thrown ex => exact h1

/-- `StdExceptionHandler` only writes to the output stream. -/
theorem stdExceptionHandler_hist (hook : Option (String → String → List String))
    (cmdLine msg : String) (st : SessState) :
    (StdExceptionHandler hook cmdLine msg st).hist = st.hist := by
  cases hook <;> rfl

/-- The `Feed` catch blocks only write to the output stream. -/
theorem handleExc_hist (hook : Option (String → String → List String))
    (line : String) (ex : Exc) (st : SessState) :
    (handleExc hook line ex st).hist = st.hist := by
  cases ex with
  | stdE b msg => exact stdExceptionHandler_hist hook line msg st
  | nonStd => rfl

/-! ### Claim C5: `CliSession::Feed` -/

/-- C5: for every session and input line, if tokenizing yields no tokens `Feed`
returns with the session unchanged (no history change, no output); otherwise it
records the raw line into history exactly once (whatever the dispatch outcome),
then tries the global-scope menu via `ScanCmds`, then the current menu via
`ScanCmds`, and writes the "wrong command" diagnostic exactly when neither
matched.  Concrete scenario: `ping` at root runs its handler exactly once and
`"ping"` is recorded in history even though the handler succeeds. -/
theorem feed_spec :
    (∀ root gmenu hook st line, splitWs line = [] → Feed root gmenu hook st line = st) ∧
    (∀ root gmenu hook st line, splitWs line ≠ [] →
      (Feed root gmenu hook st line).hist = st.hist.NewCommand line) ∧
    (∀ root gmenu hook st line t rest st1, splitWs line = t :: rest →
      ScanCmds gmenu [] (t :: rest) { st with hist := st.hist.NewCommand line }
        = (st1, .ret true) →
      Feed root gmenu hook st line = st1) ∧
    (∀ root gmenu hook st line t rest st1 st2, splitWs line = t :: rest →
      ScanCmds gmenu [] (t :: rest) { st with hist := st.hist.NewCommand line }
        = (st1, .ret false) →
      ScanCmds root st1.current (t :: rest) st1 = (st2, .ret true) →
      Feed root gmenu hook st line = st2) ∧
    (∀ root gmenu hook st line t rest st1 st2, splitWs line = t :: rest →
      ScanCmds gmenu [] (t :: rest) { st with hist := st.hist.NewCommand line }
        = (st1, .ret false) →
      ScanCmds root st1.current (t :: rest) st1 = (st2, .ret false) →
      Feed root gmenu hook st line
        = { st2 with output := st2.output ++ ["wrong command: " ++ line] }) ∧
    ((Feed rootA gmenu0 none st0 "ping").calls = [1]) ∧
    ((Feed rootA gmenu0 none st0 "ping").hist.entries = ["ping"]) ∧
    ((Feed rootA gmenu0 none st0 "ping").output = []) := by
  refine ⟨?_, ?_, ?_, ?_, ?_, by decide, by decide, by decide⟩
  · intro root gmenu hook st line h
    simp only [Feed, h]
  · intro root gmenu hook st line hne
    rcases hsp : splitWs line with _ | ⟨t, rest⟩
    · exact absurd hsp hne
    · simp only [Feed, hsp]
      split
      · rename_i st1 ex heq
        rw [handleExc_hist]
        have h1 := scanCmds_hist gmenu [] (t :: rest)
          { st with hist := st.hist.NewCommand line }
        rw [heq] at h1
        exact h1
      · rename_i st1 heq
        have h1 := scanCmds_hist gmenu [] (t :: rest)
          { st with hist := st.hist.NewCommand line }
        rw [heq] at h1
        exact h1
      · rename_i st1 heq
        have h1 := scanCmds_hist gmenu [] (t :: rest)
          { st with hist := st.hist.NewCommand line }
        rw [heq] at h1
        split
        · rename_i st2 ex2 heq2
          rw [handleExc_hist]
          have h2 := scanCmds_hist root st1.current (t :: rest) st1
          rw [heq2] at h2
          exact h2.trans h1
        · rename_i st2 heq2
          have h2 := scanCmds_hist root st1.current (t :: rest) st1
          rw [heq2] at h2
          exact h2.trans h1
        · rename_i st2 heq2
          have h2 := scanCmds_hist root st1.current (t :: rest) st1
          rw [heq2] at h2
          exact h2.trans h1
  · intro root gmenu hook st line t rest st1 hsp hg
    simp only [Feed, hsp, hg]
  · intro root gmenu hook st line t rest st1 st2 hsp hg hc
    simp only [Feed, hsp, hg, hc]
  · intro root gmenu hook st line t rest st1 st2 hsp hg hc
    simp only [Feed, hsp, hg, hc]

/-- Witness for `feed_spec` at concrete inputs: the empty line is a silent
no-op; `"ping"` is recorded in history; a global-scope match (`"help"`), a
current-menu match (`"ping"`), and a total miss (`"nope"`) produce exactly the
states the claim describes. -/
theorem feed_spec_witness :
    (Feed rootA gmenu0 none st0 "" = st0) ∧
    ((Feed rootA gmenu0 none st0 "ping").hist = st0.hist.NewCommand "ping") ∧
    (Feed rootA gmenu0 none st0 "help"
      = { current := [], output := ["helptext"], calls := [8],
          hist := st0.hist.NewCommand "help" }) ∧
    (Feed rootA gmenu0 none st0 "ping"
      = { current := [], output := [], calls := [1],
          hist := st0.hist.NewCommand "ping" }) ∧
    (Feed rootA gmenu0 none st0 "nope"
      = { current := [], output := ["wrong command: nope"], calls := [],
          hist := st0.hist.NewCommand "nope" }) :=
  ⟨(feed_spec).1 rootA gmenu0 none st0 "" rfl,
   (feed_spec).2.1 rootA gmenu0 none st0 "ping" (by decide),
   (feed_spec).2.2.1 rootA gmenu0 none st0 "help" "help" []
     { current := [], output := ["helptext"], calls := [8],
       hist := st0.hist.NewCommand "help" } (by decide) (by decide),
   (feed_spec).2.2.2.1 rootA gmenu0 none st0 "ping" "ping" []
     { st0 with hist := st0.hist.NewCommand "ping" }
     { current := [], output := [], calls := [1], hist := st0.hist.NewCommand "ping" }
     (by decide) (by decide) (by decide),
   (feed_spec).2.2.2.2.1 rootA gmenu0 none st0 "nope" "nope" []
     { st0 with hist := st0.hist.NewCommand "nope" }
     { st0 with hist := st0.hist.NewCommand "nope" }
     (by decide) (by decide) (by decide)⟩

/-! ### Claim C6: handler faults are caught at the session boundary -/

/-- C6: any `std::exception` thrown by a handler during `Feed` is caught at
the session boundary and routed to the installed exception hook, or its
message is printed as one line when no hook is installed; a non-standard throw
is caught and a generic diagnostic is printed; in every case `Feed` returns an
ordinary session state (the model's `Feed` is a total function into
`SessState`, mirroring that no exception escapes) and the session stays usable.
Concrete scenario: the `boom` handler throws during `Feed`; the output gains
exactly one diagnostic line, and a following `Feed "ping"` still runs the
`ping` handler. -/
theorem feed_exception_spec :
    (∀ hook line msg (st : SessState),
      StdExceptionHandler none line msg st = { st with output := st.output ++ [msg] } ∧
      (∀ f, StdExceptionHandler (some f) line msg st
        = { st with output := st.output ++ f line msg }) ∧
      (∀ b, handleExc hook line (.stdE b msg) st = StdExceptionHandler hook line msg st) ∧
      handleExc hook line .nonStd st
        = { st with output := st.output ++
            ["Cli. Unknown exception caught handling command line \"" ++ line ++ "\""] }) ∧
    (∀ root gmenu hook st line t rest st1 ex, splitWs line = t :: rest →
      ScanCmds gmenu [] (t :: rest) { st with hist := st.hist.NewCommand line }
        = (st1, .thrown ex) →
      Feed root gmenu hook st line = handleExc hook line ex st1) ∧
    (∀ root gmenu hook st line t rest st1 st2 ex, splitWs line = t :: rest →
      ScanCmds gmenu [] (t :: rest) { st with hist := st.hist.NewCommand line }
        = (st1, .ret false) →
      ScanCmds root st1.current (t :: rest) st1 = (st2, .thrown ex) →
      Feed root gmenu hook st line = handleExc hook line ex st2) ∧
    ((Feed rootBoom gmenu0 none st0 "boom").output = ["kaboom"]) ∧
    ((Feed rootBoom gmenu0 none st0 "boom").calls = [3]) ∧
    ((Feed rootBoom gmenu0 none (Feed rootBoom gmenu0 none st0 "boom") "ping").calls
      = [3, 1]) ∧
    ((Feed rootBoom gmenu0 none (Feed rootBoom gmenu0 none st0 "boom") "ping").output
      = ["kaboom"]) ∧
    ((Feed rootBoom gmenu0 (some (fun c m => ["handler saw " ++ c ++ ": " ++ m])) st0
        "boom").output = ["handler saw boom: kaboom"]) := by
  refine ⟨?_, ?_, ?_, by decide, by decide, by decide, by decide, by decide⟩
  · intro hook line msg st
    exact ⟨rfl, fun f => rfl, fun b => rfl, rfl⟩
  · intro root gmenu hook st line t rest st1 ex hsp hg
    simp only [Feed, hsp, hg]
  · intro root gmenu hook st line t rest st1 st2 ex hsp hg hc
    simp only [Feed, hsp, hg, hc]

/-- Witness for `feed_exception_spec` at concrete inputs: the `boom` handler
fault with no hook installed yields exactly the state the second scan produced
plus the single exception-message line. -/
theorem feed_exception_spec_witness :
    (Feed rootBoom gmenu0 none st0 "boom"
      = handleExc none "boom" (.stdE false "kaboom")
          { current := [], output := [], calls := [3],
            hist := st0.hist.NewCommand "boom" }) ∧
    (StdExceptionHandler none "boom" "kaboom"
        { current := [], output := [], calls := [3], hist := st0.hist.NewCommand "boom" }
      = { current := [], output := ["kaboom"], calls := [3],
          hist := st0.hist.NewCommand "boom" }) :=
  ⟨(feed_exception_spec).2.2.1 rootBoom gmenu0 none st0 "boom" "boom" []
      { st0 with hist := st0.hist.NewCommand "boom" }
      { current := [], output := [], calls := [3], hist := st0.hist.NewCommand "boom" }
      (.stdE false "kaboom") (by decide) (by decide) (by decide),
   ((feed_exception_spec).1 none "boom" "kaboom"
      { current := [], output := [], calls := [3],
        hist := st0.hist.NewCommand "boom" }).1⟩

/-! ### Claim C7: `CmdHandler::Descriptor::Remove` -/

/-- Erasing by identity leaves entries with other identities untouched: with
pairwise-distinct identities it is exactly the filter dropping the target
identity (names play no role). -/
theorem removeFirstById_eq_filter (target : Nat) :
    ∀ reg : List (Nat × String), (reg.map Prod.fst).Nodup →
    removeFirstById target reg = reg.filter (fun e => e.1 != target) := by
  intro reg
  induction reg with
  | nil => intro _; rfl
  | cons e es ih =>
    intro hnd
    rw [List.map_cons, List.nodup_cons] at hnd
    by_cases he : e.1 = target
    · have hfil : es.filter (fun x => x.1 != target) = es := by
        apply List.filter_eq_self.mpr
        intro a ha
        have : a.1 ≠ target := by
          intro hat
          exact hnd.1 (by simpa [hat, ← he] using List.mem_map_of_mem Prod.fst ha)
        simpa using this
      simp [removeFirstById, List.filter_cons, he, hfil]
    · simp [removeFirstById, List.filter_cons, he, ih hnd.2]

/-- Removing an absent identity is a no-op. -/
theorem removeFirstById_not_mem (target : Nat) :
    ∀ reg : List (Nat × String), target ∉ reg.map Prod.fst →
    removeFirstById target reg = reg := by
  intro reg
  induction reg with
  | nil => intro _; rfl
  | cons e es ih =>
    intro hmem
    rw [List.map_cons, List.mem_cons] at hmem
    push_neg at hmem
    have hne : ¬ e.1 = target := fun h => hmem.1 h.symm
    simp [removeFirstById, hne, ih hmem.2]

/-- Removing a present identity erases exactly one entry. -/
theorem removeFirstById_length (target : Nat) :
    ∀ reg : List (Nat × String), target ∈ reg.map Prod.fst →
    (removeFirstById target reg).length + 1 = reg.length := by
  intro reg
  induction reg with
  | nil => intro h; simp at h
  | cons e es ih =>
    intro hmem
    by_cases he : e.1 = target
    · simp [removeFirstById, he]
    · rw [List.map_cons, List.mem_cons] at hmem
      have hmem' : target ∈ es.map Prod.fst := by
        rcases hmem with h | h
        · exact absurd h.symm he
        · exact h
      simp [removeFirstById, he, ih hmem']

/-- C7: for a handle whose command and owning registry are both alive,
`Remove()` erases exactly one entry — the one identified by object identity
with the handle's command, not by name (filter characterization plus a
two-entries-same-name instance); a second `Remove()` on the same handle is a
no-op, as is `Remove()` when the command or the registry has been
destroyed. -/
theorem descriptor_remove_spec :
    (∀ target reg, DescriptorRemove false true target reg = reg) ∧
    (∀ target reg, DescriptorRemove true false target reg = reg) ∧
    (∀ target reg, DescriptorRemove false false target reg = reg) ∧
    (∀ target reg, (reg.map Prod.fst).Nodup →
      DescriptorRemove true true target reg = reg.filter (fun e => e.1 != target)) ∧
    (∀ target reg, target ∈ reg.map Prod.fst →
      (DescriptorRemove true true target reg).length + 1 = reg.length) ∧
    (∀ target reg, target ∉ reg.map Prod.fst →
      DescriptorRemove true true target reg = reg) ∧
    (∀ target reg, (reg.map Prod.fst).Nodup →
      DescriptorRemove true true target (DescriptorRemove true true target reg)
        = DescriptorRemove true true target reg) ∧
    (DescriptorRemove true true 2 [(1, "dup"), (2, "dup")] = [(1, "dup")]) := by
  refine ⟨fun _ _ => rfl, fun _ _ => rfl, fun _ _ => rfl, ?_, ?_, ?_, ?_, by decide⟩
  · intro target reg hnd
    exact removeFirstById_eq_filter target reg hnd
  · intro target reg hmem
    exact removeFirstById_length target reg hmem
  · intro target reg hmem
    exact removeFirstById_not_mem target reg hmem
  · intro target reg hnd
    have h1 := removeFirstById_eq_filter target reg hnd
    show removeFirstById target (removeFirstById target reg) = removeFirstById target reg
    rw [h1]
    apply removeFirstById_not_mem
    intro hmem
    rcases List.mem_map.mp hmem with ⟨a, ha, hfst⟩
    have := List.of_mem_filter ha
    simp [hfst] at this

/-- Witness for `descriptor_remove_spec` at concrete inputs: a registry with
two same-named entries, removal by the second entry's identity. -/
theorem descriptor_remove_spec_witness :
    (DescriptorRemove true true 2 [(1, "dup"), (2, "dup")]
      = List.filter (fun e => e.1 != 2) [(1, "dup"), (2, "dup")]) ∧
    ((DescriptorRemove true true 2 [(1, "dup"), (2, "dup")]).length + 1
      = ([(1, "dup"), (2, "dup")] : List (Nat × String)).length) ∧
    (DescriptorRemove true true 7 [(1, "dup"), (2, "dup")] = [(1, "dup"), (2, "dup")]) ∧
    (DescriptorRemove true true 2 (DescriptorRemove true true 2 [(1, "dup"), (2, "dup")])
      = DescriptorRemove true true 2 [(1, "dup"), (2, "dup")]) :=
  ⟨(descriptor_remove_spec).2.2.2.1 2 [(1, "dup"), (2, "dup")] (by decide),
   (descriptor_remove_spec).2.2.2.2.1 2 [(1, "dup"), (2, "dup")] (by decide),
   (descriptor_remove_spec).2.2.2.2.2.1 7 [(1, "dup"), (2, "dup")] (by decide),
   (descriptor_remove_spec).2.2.2.2.2.2.1 2 [(1, "dup"), (2, "dup")] (by decide)⟩

/-! ### Claim C9: bounded history, FIFO eviction, clamped `Previous` -/

/-- Folding `NewCommand` keeps only the newest `bound` entries: the general
invariant behind FIFO eviction. -/
theorem foldl_NewCommand_entries : ∀ (xs : List String) (h : History),
    h.entries.length ≤ h.bound →
    (List.foldl History.NewCommand h xs).entries
      = (h.entries ++ xs).drop (h.entries.length + xs.length - h.bound) := by
  intro xs
  induction xs with
  | nil =>
    intro h hle
    simp [Nat.sub_eq_zero_of_le hle]
  | cons x xs ih =>
    intro h hle
    rw [List.foldl_cons]
    by_cases hb : h.bound < h.entries.length + 1
    · have hlen : h.entries.length = h.bound := by omega
      have hNew : (h.NewCommand x).entries = (h.entries ++ [x]).drop 1 := by
        simp only [History.NewCommand, List.length_append, List.length_cons,
          List.length_nil, Nat.zero_add, hlen]
        rw [if_pos (by omega)]
        congr 1
        omega
      have hlen2 : (h.NewCommand x).entries.length = h.bound := by
        rw [hNew]
        simp [hlen]
      have hbound : (h.NewCommand x).bound = h.bound := rfl
      rw [ih (h.NewCommand x) (by rw [hbound, hlen2]), hNew, hbound]
      rw [← List.drop_append_of_le_length
        (show 1 ≤ (h.entries ++ [x]).length by simp), List.drop_drop]
      rw [show (h.entries ++ [x]) ++ xs = h.entries ++ x :: xs by simp]
      congr 1
      simp only [List.length_drop, List.length_append, List.length_cons, List.length_nil]
      omega
    · have hNew : (h.NewCommand x).entries = h.entries ++ [x] := by
        simp only [History.NewCommand, List.length_append, List.length_cons,
          List.length_nil, Nat.zero_add]
        rw [if_neg (by omega)]
      have hlen' : (h.NewCommand x).entries.length ≤ h.bound := by
        rw [hNew]
        simp
        omega
      have hbound : (h.NewCommand x).bound = h.bound := rfl
      rw [ih (h.NewCommand x) (by rw [hbound]; exact hlen'), hNew, hbound]
      rw [show (h.entries ++ [x]) ++ xs = h.entries ++ x :: xs by simp]
      congr 1
      simp
      omega

/-- With the cursor at the oldest entry, `Previous` keeps returning the shown
line unchanged, however often it is pressed. -/
theorem prevN_cursor_zero : ∀ (n : Nat) (h : History) (cur : String), h.cursor = 0 →
    prevN n h cur = (cur, h) := by
  intro n
  induction n with
  | zero => intro h cur _; rfl
  | succ n ih =>
    intro h cur hc
    simp only [prevN, History.Previous, if_pos hc]
    exact ih h cur hc

/-- Pressing "up" at least `cursor` many times from any in-range cursor
position lands on (and stays at) the oldest entry. -/
theorem prevN_reaches_oldest : ∀ (n : Nat) (h : History) (cur : String),
    0 < h.cursor → h.cursor ≤ h.entries.length → h.cursor ≤ n →
    (prevN n h cur).1 = h.entries.getD 0 "" := by
  intro n
  induction n with
  | zero => intro h cur h1 _ h3; omega
  | succ n ih =>
    intro h cur h1 h2 h3
    simp only [prevN, History.Previous, if_neg (by omega : ¬ h.cursor = 0)]
    by_cases hone : h.cursor - 1 = 0
    · rw [prevN_cursor_zero n _ _ hone]
      have h0 : h.cursor - 1 = 0 := hone
      rw [h0]
      have hlt : 0 < h.entries.length := by omega
      rw [List.getD_eq_getElem h.entries cur hlt, List.getD_eq_getElem h.entries "" hlt]
    · have hrec := ih
        ⟨h.bound, h.entries, h.cursor - 1,
          if h.cursor = h.entries.length then cur else h.saved⟩
        (h.entries.getD (h.cursor - 1) cur)
        (by show 0 < h.cursor - 1; omega)
        (by show h.cursor - 1 ≤ h.entries.length; omega)
        (by show h.cursor - 1 ≤ n; omega)
      exact hrec

/-- C9: starting from an empty history with bound `B ≥ 1`, inserting more than
`B` entries via `NewCommand` retains exactly `B` entries, the evicted ones
being the oldest (the retained list is the suffix of the inserted sequence);
and pressing `Previous` `N ≥ M` times from the live cursor of a history holding
`M ≥ 1` entries yields the oldest entry, with no wraparound: once at the oldest
entry `Previous` returns the current line unchanged. -/
theorem history_spec :
    (∀ B (xs : List String), 0 < B → B < xs.length →
      (List.foldl History.NewCommand ⟨B, [], 0, ""⟩ xs).entries
        = xs.drop (xs.length - B)) ∧
    (∀ B (xs : List String), 0 < B → B < xs.length →
      (List.foldl History.NewCommand ⟨B, [], 0, ""⟩ xs).entries.length = B) ∧
    (∀ (h : History) (cur : String) (N : Nat),
      h.cursor = h.entries.length → h.entries ≠ [] → h.entries.length ≤ N →
      (prevN N h cur).1 = h.entries.getD 0 "") ∧
    (∀ (h : History) (cur : String), h.cursor = 0 → h.Previous cur = (cur, h)) := by
  refine ⟨?_, ?_, ?_, ?_⟩
  · intro B xs hB hlen
    have := foldl_NewCommand_entries xs ⟨B, [], 0, ""⟩ (by simp)
    simpa using this
  · intro B xs hB hlen
    have := foldl_NewCommand_entries xs ⟨B, [], 0, ""⟩ (by simp)
    simp only [List.nil_append, List.length_nil, Nat.zero_add] at this
    rw [this, List.length_drop]
    omega
  · intro h cur N hc hne hN
    apply prevN_reaches_oldest
    · rw [hc]
      exact List.length_pos.mpr hne
    · omega
    · omega
  · intro h cur hc
    simp [History.Previous, hc]

/-- Witness for `history_spec` at concrete inputs: bound 2 with three inserts
keeps `["b", "c"]`; three (or more) `Previous` presses from the live cursor of
a two-entry history land on the oldest entry `"b"`; at the oldest entry
`Previous` echoes the current line. -/
theorem history_spec_witness :
    ((List.foldl History.NewCommand ⟨2, [], 0, ""⟩ ["a", "b", "c"]).entries = ["b", "c"]) ∧
    ((List.foldl History.NewCommand ⟨2, [], 0, ""⟩ ["a", "b", "c"]).entries.length = 2) ∧
    ((prevN 3 ⟨2, ["b", "c"], 2, ""⟩ "live").1 = "b") ∧
    (History.Previous ⟨2, ["b", "c"], 0, "s"⟩ "b" = ("b", ⟨2, ["b", "c"], 0, "s"⟩)) :=
  ⟨by
    have := (history_spec).1 2 ["a", "b", "c"] (by decide) (by decide)
    simpa using this,
   by
    have := (history_spec).2.1 2 ["a", "b", "c"] (by decide) (by decide)
    simpa using this,
   by
    have := (history_spec).2.2.1 ⟨2, ["b", "c"], 2, ""⟩ "live" 3 (by decide) (by decide)
      (by decide)
    simpa using this,
   (history_spec).2.2.2 ⟨2, ["b", "c"], 0, "s"⟩ "b" (by decide)⟩

/-! ### Claim C10: a handler-thrown `std::bad_cast` is treated as a non-match -/

/-- C10: when the registered handler of a fixed-arity typed command itself
throws `std::bad_cast` during execution (after the arguments converted fine),
`VariadicFunctionCommand::Exec` catches it and returns false: the session keeps
the handler's side effects (its output and its logged invocation) but the line
counts as a non-match, falling through to other candidates, and if none match
the session prints "wrong command" — the exception never reaches the
session-level handler-fault path (the hook is not invoked even when
installed). -/
theorem vfc_badcast_nonmatch :
    (∀ (n : String) conv (h : Handler) (p : List Nat) (t : String) args (st : SessState)
        outs msg,
      (t :: args).length = conv.length + 1 → n = t → convOk conv args = true →
      h.run args = (outs, some (.stdE true msg)) →
      Cmd.Exec (.vfc n true conv h) p (t :: args) st
        = ({ st with output := st.output ++ outs, calls := st.calls ++ [h.hid] },
           .ret false)) ∧
    ((Feed rootBC gmenu0 (some (fun c m => ["hooked " ++ c ++ " " ++ m])) st0
        "conv bad").output = ["half done", "wrong command: conv bad"]) ∧
    ((Feed rootBC gmenu0 (some (fun c m => ["hooked " ++ c ++ " " ++ m])) st0
        "conv bad").calls = [4]) := by
  refine ⟨?_, by decide, by decide⟩
  intro n conv h p t args st outs msg hlen hn hconv hrun
  simp [Cmd.Exec, vfcExec, hlen, hn, hconv, catchBadCast, runHandler, hrun]

/-- Witness for `vfc_badcast_nonmatch` at concrete inputs: the `conv` command
whose handler throws `std::bad_cast` returns a non-match, keeping the
handler's written line and logged invocation. -/
theorem vfc_badcast_nonmatch_witness :
    Cmd.Exec (.vfc "conv" true [fun _ => true] badCastH) [] ["conv", "bad"] st0
      = ({ st0 with output := ["half done"], calls := [4] }, .ret false) := by
  have := (vfc_badcast_nonmatch).1 "conv" [fun _ => true] badCastH [] "conv" ["bad"] st0
    ["half done"] "std::bad_cast" (by decide) rfl (by decide) rfl
  simpa using this

end CliModel
